import Mathlib

/-!
Verification of the concurrency core of the magic-mirror repository:
the deduplicating, bounded-concurrency work queue in
internal/work/queue.go, together with the urgent-priority and KeyMutex
features described by the specification.

Go machine integers never approach overflow in this code (they count
grants and list lengths), so counters are embedded as Int or Nat.
Control flow that can abort abnormally (a Go panic or runtime.Goexit)
is embedded with the GoOutcome type below.
-/

namespace MagicMirror

/-- Outcome of running a piece of Go code: either it returns a value
normally, or it aborts abnormally (panic or Goexit). -/
inductive GoOutcome (A : Type) where
  | ok (a : A)
  | panicked
  deriving DecidableEq, Repr

/-- Embedding of workState from internal/work/queue.go: the scheduler
state of a limited concurrency queue. The reattachers field of the Go
struct is a slice of channels; each channel is embedded as an opaque
natural-number token, and the slice order is kept. -/
structure workState (K : Type) where
  grants : Int
  keys : List K
  reattachers : List Nat
  deriving DecidableEq, Repr

/-- The three ways tryGetQueuedKeyLocked can resolve: transfer the work
grant to a waiting reattacher (closing its channel), retire the grant,
or return a queued key for the caller to execute. -/
inductive ExitAction (K : Type) where
  | transfer (r : Nat)
  | retire
  | run (key : K)
  deriving DecidableEq, Repr

/-- Embedding of Queue.tryGetQueuedKeyLocked from internal/work/queue.go:
with the state lock held, either hand the work grant to the oldest
reattacher, or retire the grant when no work is pending, or dequeue the
next key. Returns the action taken and the updated scheduler state. -/
def tryGetQueuedKeyLocked {K : Type} (s : workState K) :
    ExitAction K × workState K :=
  match s.reattachers with
  | r :: rest => (ExitAction.transfer r, { s with reattachers := rest })
  | [] =>
    match s.keys with
    | [] => (ExitAction.retire, { s with grants := s.grants - 1 })
    | k :: rest => (ExitAction.run k, { s with keys := rest })

/-- Embedding of Queue.scheduleLimited from internal/work/queue.go:
issue as many new work grants as the concurrency limit maxGrants
allows, return the keys handed to freshly spawned workers, and append
the remaining keys to the pending-key queue. -/
def scheduleLimited {K : Type} (maxGrants : Int) (keys : List K)
    (s : workState K) : List K × workState K :=
  if keys.length = 0 then ([], s)
  else
    let newGrants := min (maxGrants - s.grants) (keys.length : Int)
    (keys.take newGrants.toNat,
      { s with
        grants := s.grants + newGrants
        keys := s.keys ++ keys.drop newGrants.toNat })

/-- Embedding of Queue.handleReattach from internal/work/queue.go for a
limited queue (maxGrants > 0): if there is capacity, issue a fresh work
grant; otherwise append the token of the caller to the reattachers
queue and block. The Bool records whether the caller must wait. -/
def handleReattach {K : Type} (maxGrants : Int) (token : Nat)
    (s : workState K) : Bool × workState K :=
  if s.grants < maxGrants then
    (false, { s with grants := s.grants + 1 })
  else
    (true, { s with reattachers := s.reattachers ++ [token] })

/-- Embedding of QueueHandle from internal/work/queue.go: the detached
flag seen by Detach and Reattach. -/
structure QueueHandle where
  detached : Bool
  deriving DecidableEq, Repr

/-- Embedding of QueueHandle.Reattach from internal/work/queue.go. The
Go method only acts when qh.detached holds; on a handle that never
detached it falls through the guard and returns normally. The Bool
records whether the reattach callback was invoked. -/
def QueueHandleReattach (qh : QueueHandle) :
    GoOutcome (Bool × QueueHandle) :=
  if qh.detached then GoOutcome.ok (true, { detached := false })
  else GoOutcome.ok (false, qh)

/-- C5: whenever the grant-holder exit protocol runs while at least one
reattacher is waiting, tryGetQueuedKeyLocked transfers the grant to the
oldest (head) reattacher: the pending-key queue is untouched, the
grants counter is untouched, and (second conjunct) handleReattach
enqueues new reattachers at the tail, so the head is the oldest. -/
theorem tryGetQueuedKey_prefers_oldest_reattacher {K : Type}
    (s : workState K) (r : Nat) (rest : List Nat)
    (h : s.reattachers = r :: rest) :
    tryGetQueuedKeyLocked s =
      (ExitAction.transfer r, ⟨s.grants, s.keys, rest⟩) ∧
    ∀ (m : Int) (tok : Nat) (s2 : workState K), ¬ s2.grants < m →
      handleReattach m tok s2 =
        (true, ⟨s2.grants, s2.keys, s2.reattachers ++ [tok]⟩) := by
  constructor
  · unfold tryGetQueuedKeyLocked
    rw [h]
  · intro m tok s2 h2
    unfold handleReattach
    rw [if_neg h2]

/-- Witness for C5 at a concrete saturated state with one reattacher
and one queued key. -/
theorem tryGetQueuedKey_prefers_oldest_reattacher_witness :
    tryGetQueuedKeyLocked (K := Nat) ⟨1, [7], [4, 5]⟩ =
      (ExitAction.transfer 4, ⟨1, [7], [5]⟩) ∧
    ∀ (m : Int) (tok : Nat) (s2 : workState Nat), ¬ s2.grants < m →
      handleReattach m tok s2 =
        (true, ⟨s2.grants, s2.keys, s2.reattachers ++ [tok]⟩) :=
  tryGetQueuedKey_prefers_oldest_reattacher ⟨1, [7], [4, 5]⟩ 4 [5] rfl

/-- C6 counterexample: calling Reattach on a handle that never detached
does not abort; it returns normally (the reattach callback is not even
invoked), contradicting the claim that it surfaces as a panic. -/
theorem reattach_without_detach_returns_normally :
    QueueHandleReattach ⟨false⟩ = GoOutcome.ok (false, ⟨false⟩) ∧
    QueueHandleReattach ⟨false⟩ ≠ GoOutcome.panicked := by
  constructor
  · rfl
  · intro h
    simp [QueueHandleReattach] at h

/-- C6 amended: Reattach called from a handler that has not previously
detached is a no-op: it returns normally with the handle unchanged and
without invoking the queue reattach protocol. -/
theorem reattach_without_detach_noop (qh : QueueHandle)
    (h : qh.detached = false) :
    QueueHandleReattach qh = GoOutcome.ok (false, qh) := by
  unfold QueueHandleReattach
  rw [h]
  simp

/-- Witness for the amended C6 at the concrete non-detached handle. -/
theorem reattach_without_detach_noop_witness :
    QueueHandleReattach ⟨false⟩ = GoOutcome.ok (false, ⟨false⟩) :=
  reattach_without_detach_noop ⟨false⟩ rfl

/-- Embedding of the task struct from internal/work/queue.go: a cell
that is pending until the worker publishes a value and an error. The
sync.WaitGroup is embedded by the completed flag: waiters unblock
exactly when completed becomes true. -/
structure TaskCell (V E : Type) where
  completed : Bool
  value : Option V
  err : Option E
  deriving DecidableEq, Repr

/-- Embedding of Queue.completeTask from internal/work/queue.go. The
handler invocation is embedded by its outcome. The Go body has no
defer and no recover around the handler call, so when the handler
panics or calls runtime.Goexit the statements that store the result,
increment tasksDone and release the wait group never run: the task
cell and the done counter are returned unchanged and the abnormal
termination propagates (GoOutcome.panicked). On a normal return the
result is stored, tasksDone is incremented, the wait group is
released, and the detached flag of the handle is returned. -/
def completeTask {V E : Type} (handlerOutcome : GoOutcome (V × Option E))
    (t : TaskCell V E) (tasksDone : Nat) (detached : Bool) :
    GoOutcome Bool × TaskCell V E × Nat :=
  match handlerOutcome with
  | GoOutcome.ok (v, e) =>
      (GoOutcome.ok detached, ⟨true, some v, e⟩, tasksDone + 1)
  | GoOutcome.panicked => (GoOutcome.panicked, t, tasksDone)

/-- C1: evaluation of completeTask at the failing input. When the
handler aborts abnormally, the source leaves the task cell pending
(waiters of Get and GetAll block forever), does not increment
tasksDone, and propagates the abort, so the worker never reaches the
grant-holder exit protocol of tryGetQueuedKey: the code has no recover
wrapper, contradicting the claim and the Goexit test of the repository. -/
theorem completeTask_abnormal_leaves_task_pending :
    completeTask (V := Nat) (E := Nat) GoOutcome.panicked
        ⟨false, none, none⟩ 0 false =
      (GoOutcome.panicked, ⟨false, none, none⟩, 0) ∧
    (completeTask (V := Nat) (E := Nat) GoOutcome.panicked
        ⟨false, none, none⟩ 0 false).2.1.completed = false := by
  exact ⟨rfl, rfl⟩

/-- Modelled from the spec: the urgent-priority scheduler state. The
source file internal/work/queue.go does not implement GetUrgent and
GetAllUrgent (only the repository tests call them); per the spec the
state holds a LIFO-of-FIFOs urgent structure, flattened here to the
effective urgent key order, ahead of the FIFO normal queue. -/
structure SpecPriorityState (K : Type) where
  urgentKeys : List K
  normalKeys : List K
  deriving DecidableEq, Repr

/-- Modelled from the spec: submitting an urgent batch to a saturated
queue places the whole batch, in caller order, ahead of every
previously queued urgent key (reverse batch order, forward
within-batch order). -/
def submitUrgent {K : Type} (batch : List K) (s : SpecPriorityState K) :
    SpecPriorityState K :=
  { s with urgentKeys := batch ++ s.urgentKeys }

/-- Modelled from the spec: submitting a normal batch to a saturated
queue appends it to the normal FIFO. -/
def submitNormal {K : Type} (batch : List K) (s : SpecPriorityState K) :
    SpecPriorityState K :=
  { s with normalKeys := s.normalKeys ++ batch }

/-- Modelled from the spec: a grant-holder dequeues the next urgent key
if any exists, and only otherwise the next normal key. -/
def dequeueNext {K : Type} (s : SpecPriorityState K) :
    Option (K × SpecPriorityState K) :=
  match s.urgentKeys with
  | k :: rest => some (k, ⟨rest, s.normalKeys⟩)
  | [] =>
    match s.normalKeys with
    | k :: rest => some (k, ⟨[], rest⟩)
    | [] => none

/-- Fuel-driven repeated dequeue, used to observe the order in which a
saturated queue hands out its queued keys. -/
def drainPriorityAux {K : Type} (fuel : Nat) (s : SpecPriorityState K) :
    List K :=
  match fuel with
  | 0 => []
  | fuel + 1 =>
    match dequeueNext s with
    | some (k, s2) => k :: drainPriorityAux fuel s2
    | none => []

/-- The order in which all currently queued keys are dequeued. -/
def drainPriority {K : Type} (s : SpecPriorityState K) : List K :=
  drainPriorityAux (s.urgentKeys.length + s.normalKeys.length) s

/-- Draining dequeues every urgent key, in urgent-queue order, and only
then the normal keys in FIFO order. -/
theorem drainPriority_eq_urgent_append_normal {K : Type}
    (s : SpecPriorityState K) :
    drainPriority s = s.urgentKeys ++ s.normalKeys := by
  obtain ⟨u, n⟩ := s
  unfold drainPriority
  simp only
  induction u with
  | nil =>
    simp only [List.nil_append, List.length_nil, Nat.zero_add]
    induction n with
    | nil => rfl
    | cons k rest ih =>
      simp only [List.length_cons]
      unfold drainPriorityAux
      simp only [dequeueNext]
      rw [ih]
  | cons k rest ih =>
    simp only [List.length_cons, List.cons_append]
    rw [Nat.add_right_comm]
    unfold drainPriorityAux
    simp only [dequeueNext]
    rw [ih]

/-- C2: on a saturated bounded queue holding any normal backlog, after
urgent batch A = (a1, a2) is submitted and then urgent batch B =
(b1, b2), the queued keys are dequeued in the order b1, b2, a1, a2
followed by the normal backlog: reverse batch order, forward
within-batch order, and every urgent key before any normal key. -/
theorem urgent_batches_reverse_batch_forward_within {K : Type}
    (a1 a2 b1 b2 : K) (backlog : List K) :
    drainPriority
        (submitUrgent [b1, b2]
          (submitUrgent [a1, a2] ⟨[], backlog⟩)) =
      [b1, b2, a1, a2] ++ backlog := by
  rw [drainPriority_eq_urgent_append_normal]
  rfl

/-- Modelled from the spec: KeyMutex.Unlock. The KeyMutex source is not
under src (only its tests are); per the spec the mutex tracks the set
of currently held keys and Unlock panics when the key is not held,
otherwise it releases exactly that key. The held set is embedded as
the list of held keys. -/
def keyMutexUnlock {K : Type} [DecidableEq K] (held : List K) (key : K) :
    GoOutcome (List K) :=
  if key ∈ held then GoOutcome.ok (held.erase key)
  else GoOutcome.panicked

/-- C9: Unlock on a key that is not held (including a never-locked key)
panics rather than returning normally, and Unlock on a held key
releases exactly that key: the key leaves the held set and every other
held key stays held. -/
theorem keyMutexUnlock_panics_iff_not_held {K : Type} [DecidableEq K]
    (held : List K) (key : K) (hd : held.Nodup) :
    (key ∉ held → keyMutexUnlock held key = GoOutcome.panicked) ∧
    (key ∈ held →
      keyMutexUnlock held key = GoOutcome.ok (held.erase key) ∧
      key ∉ held.erase key ∧
      ∀ k2, k2 ≠ key → (k2 ∈ held.erase key ↔ k2 ∈ held)) := by
  constructor
  · intro h
    unfold keyMutexUnlock
    rw [if_neg h]
  · intro h
    refine ⟨by unfold keyMutexUnlock; rw [if_pos h], ?_, ?_⟩
    · intro hmem
      exact ((List.Nodup.mem_erase_iff hd).mp hmem).1 rfl
    · intro k2 hne
      rw [List.Nodup.mem_erase_iff hd]
      exact ⟨fun h2 => h2.2, fun h2 => ⟨hne, h2⟩⟩

/-- Witness for C9 at a concrete held set: unlocking the never-locked
key 9 panics, and unlocking the held key 1 releases exactly key 1. -/
theorem keyMutexUnlock_panics_iff_not_held_witness :
    ((9 : Nat) ∉ [1, 2, 3] →
      keyMutexUnlock [1, 2, 3] 9 = GoOutcome.panicked) ∧
    ((1 : Nat) ∈ [1, 2, 3] →
      keyMutexUnlock [1, 2, 3] 1 =
        GoOutcome.ok (([1, 2, 3] : List Nat).erase 1) ∧
      (1 : Nat) ∉ ([1, 2, 3] : List Nat).erase 1 ∧
      ∀ k2, k2 ≠ (1 : Nat) →
        (k2 ∈ ([1, 2, 3] : List Nat).erase 1 ↔ k2 ∈ [1, 2, 3])) := by
  have h1 := keyMutexUnlock_panics_iff_not_held [1, 2, 3] (9 : Nat)
    (by decide)
  have h2 := keyMutexUnlock_panics_iff_not_held [1, 2, 3] (1 : Nat)
    (by decide)
  exact ⟨h1.1, h2.2⟩

/-- Embedding of Queue.getOrCreateTasks from internal/work/queue.go at
the level of the tasks map domain: tasks is the list of keys already in
the map (insertion order), and the result is the updated domain
together with newKeys, the keys for which a fresh pending task was
inserted, in submission order. Keys already present only attach their
waiters and are skipped. -/
def getOrCreateTasks {K : Type} [DecidableEq K] (tasks : List K)
    (keys : List K) : List K × List K :=
  match keys with
  | [] => (tasks, [])
  | k :: rest =>
    if k ∈ tasks then getOrCreateTasks tasks rest
    else
      let r := getOrCreateTasks (tasks ++ [k]) rest
      (r.1, k :: r.2)

/-- The updated tasks map domain is the old domain with exactly the new
keys appended. -/
theorem getOrCreateTasks_fst {K : Type} [DecidableEq K] (tasks : List K)
    (keys : List K) :
    (getOrCreateTasks tasks keys).1 =
      tasks ++ (getOrCreateTasks tasks keys).2 := by
  induction keys generalizing tasks with
  | nil => simp [getOrCreateTasks]
  | cons k rest ih =>
    unfold getOrCreateTasks
    by_cases hk : k ∈ tasks
    · rw [if_pos hk]
      exact ih tasks
    · rw [if_neg hk]
      simp only
      rw [ih (tasks ++ [k])]
      simp

/-- Every new key was absent from the tasks map before the call. -/
theorem getOrCreateTasks_new_not_mem {K : Type} [DecidableEq K]
    (tasks : List K) (keys : List K) :
    ∀ x ∈ (getOrCreateTasks tasks keys).2, x ∉ tasks := by
  induction keys generalizing tasks with
  | nil => simp [getOrCreateTasks]
  | cons k rest ih =>
    unfold getOrCreateTasks
    by_cases hk : k ∈ tasks
    · rw [if_pos hk]
      exact ih tasks
    · rw [if_neg hk]
      intro x hx
      simp only [List.mem_cons] at hx
      rcases hx with rfl | hx
      · exact hk
      · intro hxt
        exact ih (tasks ++ [k]) x hx (by simp [hxt])

/-- The new keys of a single call contain no duplicates: a duplicate
submission within one batch attaches to the task created for the first
occurrence. -/
theorem getOrCreateTasks_new_nodup {K : Type} [DecidableEq K]
    (tasks : List K) (keys : List K) :
    (getOrCreateTasks tasks keys).2.Nodup := by
  induction keys generalizing tasks with
  | nil => simp [getOrCreateTasks]
  | cons k rest ih =>
    unfold getOrCreateTasks
    by_cases hk : k ∈ tasks
    · rw [if_pos hk]
      exact ih tasks
    · rw [if_neg hk]
      simp only [List.nodup_cons]
      refine ⟨?_, ih (tasks ++ [k])⟩
      intro hmem
      exact getOrCreateTasks_new_not_mem (tasks ++ [k]) rest k hmem
        (by simp)

/-- A key is in the updated map exactly when it was already there or
occurs in the submitted batch. -/
theorem getOrCreateTasks_mem_iff {K : Type} [DecidableEq K]
    (tasks : List K) (keys : List K) (x : K) :
    x ∈ (getOrCreateTasks tasks keys).1 ↔ x ∈ tasks ∨ x ∈ keys := by
  induction keys generalizing tasks with
  | nil => simp [getOrCreateTasks]
  | cons k rest ih =>
    unfold getOrCreateTasks
    by_cases hk : k ∈ tasks
    · rw [if_pos hk, ih tasks]
      constructor
      · rintro (h | h)
        · exact Or.inl h
        · exact Or.inr (List.mem_cons_of_mem k h)
      · rintro (h | h)
        · exact Or.inl h
        · rcases List.mem_cons.mp h with rfl | h
          · exact Or.inl hk
          · exact Or.inr h
    · rw [if_neg hk]
      simp only
      rw [ih (tasks ++ [k])]
      simp only [List.mem_append, List.mem_singleton, List.mem_cons]
      tauto

/-- Distinct keys stay distinct across a submission. -/
theorem getOrCreateTasks_nodup {K : Type} [DecidableEq K]
    (tasks : List K) (keys : List K) (hd : tasks.Nodup) :
    (getOrCreateTasks tasks keys).1.Nodup := by
  rw [getOrCreateTasks_fst]
  rw [List.nodup_append]
  refine ⟨hd, getOrCreateTasks_new_nodup tasks keys, ?_⟩
  intro x hx hx2
  exact getOrCreateTasks_new_not_mem tasks keys x hx2 hx

/-- Processing a whole sequence of Get and GetAll submissions: each
batch goes through getOrCreateTasks and schedules a handler for every
new key. Returns the final tasks map domain and the concatenated list
of handler invocations. -/
def processBatches {K : Type} [DecidableEq K] (tasks : List K)
    (batches : List (List K)) : List K × List K :=
  match batches with
  | [] => (tasks, [])
  | b :: rest =>
    let r1 := getOrCreateTasks tasks b
    let r2 := processBatches r1.1 rest
    (r2.1, r1.2 ++ r2.2)

/-- Across a whole submission sequence, the final map domain is the
starting domain followed by all invoked keys. -/
theorem processBatches_fst {K : Type} [DecidableEq K] (tasks : List K)
    (batches : List (List K)) :
    (processBatches tasks batches).1 =
      tasks ++ (processBatches tasks batches).2 := by
  induction batches generalizing tasks with
  | nil => simp [processBatches]
  | cons b rest ih =>
    unfold processBatches
    simp only
    rw [ih, getOrCreateTasks_fst tasks b]
    simp

/-- Membership in the final map domain. -/
theorem processBatches_mem_iff {K : Type} [DecidableEq K]
    (tasks : List K) (batches : List (List K)) (x : K) :
    x ∈ (processBatches tasks batches).1 ↔
      x ∈ tasks ∨ x ∈ batches.flatten := by
  induction batches generalizing tasks with
  | nil => simp [processBatches]
  | cons b rest ih =>
    unfold processBatches
    simp only
    rw [ih, getOrCreateTasks_mem_iff]
    simp only [List.flatten_cons, List.mem_append]
    tauto

/-- The final map domain stays duplicate-free. -/
theorem processBatches_nodup {K : Type} [DecidableEq K] (tasks : List K)
    (batches : List (List K)) (hd : tasks.Nodup) :
    (processBatches tasks batches).1.Nodup := by
  induction batches generalizing tasks with
  | nil => simpa [processBatches] using hd
  | cons b rest ih =>
    unfold processBatches
    exact ih _ (getOrCreateTasks_nodup tasks b hd)

/-- C4: for every sequence of Get and GetAll submissions, starting from
the empty queue, the tasks map domain (whose size is what
Stats().submitted reports) is exactly the list of handler invocations;
it contains no duplicates (so the handler ran at most once per
distinct key) and it contains a key exactly when that key occurs
somewhere in the submissions, so submitted equals the number of
distinct keys ever submitted. -/
theorem submitted_counts_distinct_keys {K : Type} [DecidableEq K]
    (batches : List (List K)) :
    (processBatches [] batches).1 = (processBatches [] batches).2 ∧
    (processBatches [] batches).1.Nodup ∧
    (∀ x, x ∈ (processBatches [] batches).1 ↔ x ∈ batches.flatten) ∧
    (processBatches [] batches).1.length =
      batches.flatten.dedup.length := by
  have hfst := processBatches_fst ([] : List K) batches
  simp only [List.nil_append] at hfst
  have hnd := processBatches_nodup ([] : List K) batches List.nodup_nil
  have hmem : ∀ x, x ∈ (processBatches [] batches).1 ↔
      x ∈ batches.flatten := by
    intro x
    rw [processBatches_mem_iff]
    simp
  refine ⟨hfst, hnd, hmem, ?_⟩
  have hperm :
      List.Perm (processBatches [] batches).1 batches.flatten.dedup := by
    rw [List.perm_ext_iff_of_nodup hnd (List.nodup_dedup _)]
    intro a
    rw [hmem a, List.mem_dedup]
  exact hperm.length_eq

/-- Task-lifecycle state of a queue: the tasks map domain (submitted
keys), the keys whose handler has been scheduled but has not finished,
and the tasksDone counter. -/
structure TaskSysState (K : Type) where
  tasks : List K
  pendingKeys : List K
  tasksDone : Nat
  deriving DecidableEq, Repr

/-- The state of a queue fresh from NewQueue. -/
def initTaskSys {K : Type} : TaskSysState K := ⟨[], [], 0⟩

/-- Atomic task-lifecycle transitions of internal/work/queue.go: a
Get or GetAll submission inserts the new keys of the batch (under the
tasks lock) and schedules each of them exactly once, and a handler
invocation for a scheduled key finishes, incrementing tasksDone. -/
inductive TaskStep {K : Type} [DecidableEq K] :
    TaskSysState K → TaskSysState K → Prop where
  | submit (batch : List K) (s : TaskSysState K) :
      TaskStep s
        ⟨(getOrCreateTasks s.tasks batch).1,
          s.pendingKeys ++ (getOrCreateTasks s.tasks batch).2,
          s.tasksDone⟩
  | finish (k : K) (s : TaskSysState K) (hk : k ∈ s.pendingKeys) :
      TaskStep s ⟨s.tasks, s.pendingKeys.erase k, s.tasksDone + 1⟩

/-- States reachable from a fresh queue by task-lifecycle steps. -/
inductive TaskReach {K : Type} [DecidableEq K] : TaskSysState K → Prop
  | init : TaskReach initTaskSys
  | step {s t : TaskSysState K} (hs : TaskReach s) (hst : TaskStep s t) :
      TaskReach t

/-- Inductive invariant for the task lifecycle: every finished handler
and every still-pending scheduled key corresponds to its own entry in
the tasks map. -/
def TaskInv {K : Type} (s : TaskSysState K) : Prop :=
  s.tasksDone + s.pendingKeys.length ≤ s.tasks.length

theorem taskInv_init {K : Type} : TaskInv (initTaskSys (K := K)) := by
  simp [TaskInv, initTaskSys]

theorem taskInv_step {K : Type} [DecidableEq K]
    {s t : TaskSysState K} (hinv : TaskInv s) (hst : TaskStep s t) :
    TaskInv t := by
  cases hst with
  | submit batch s =>
    unfold TaskInv at hinv ⊢
    simp only [List.length_append]
    have hlen : (getOrCreateTasks s.tasks batch).1.length =
        s.tasks.length + (getOrCreateTasks s.tasks batch).2.length := by
      rw [getOrCreateTasks_fst]
      simp
    rw [hlen]
    omega
  | finish k s hk =>
    unfold TaskInv at hinv ⊢
    dsimp only
    have hlen := List.length_erase_of_mem hk
    have hpos : 1 ≤ s.pendingKeys.length := List.length_pos.mpr
      (List.ne_nil_of_mem hk)
    rw [hlen]
    omega

theorem taskReach_inv {K : Type} [DecidableEq K] {s : TaskSysState K}
    (h : TaskReach s) : TaskInv s := by
  induction h with
  | init => exact taskInv_init
  | step hs hst ih => exact taskInv_step ih hst

/-- C10: in every reachable task-lifecycle state, the tasksDone counter
(Stats().done) is at most the size of the tasks map (Stats().submitted):
a task is inserted before its handler can run, tasks are never removed,
and tasksDone is incremented at most once per distinct key. -/
theorem done_le_submitted {K : Type} [DecidableEq K]
    {s : TaskSysState K} (h : TaskReach s) :
    s.tasksDone ≤ s.tasks.length := by
  have hinv := taskReach_inv h
  unfold TaskInv at hinv
  omega

/-- Witness for C10 on a short concrete run: submit the batch [1, 2, 1]
and finish the handler for key 1. -/
theorem done_le_submitted_witness :
    (⟨[1, 2], ([1, 2] : List Nat).erase 1, 1⟩ :
        TaskSysState Nat).tasksDone ≤
      (⟨[1, 2], ([1, 2] : List Nat).erase 1, 1⟩ :
        TaskSysState Nat).tasks.length := by
  refine done_le_submitted (TaskReach.step (TaskReach.step TaskReach.init
    (TaskStep.submit [1, 2, 1] initTaskSys)) ?_)
  have hstep := TaskStep.finish (K := Nat) 1
    ⟨[1, 2], [1, 2], 0⟩ (by decide)
  have heq : (getOrCreateTasks (K := Nat) [] [1, 2, 1]).1 = [1, 2] := by
    decide
  have heq2 : (getOrCreateTasks (K := Nat) [] [1, 2, 1]).2 = [1, 2] := by
    decide
  simp only [initTaskSys, heq, heq2, List.nil_append]
  exact hstep

/-- Scheduler state of a bounded queue together with the number of
goroutines currently executing a handler while attached (holding a
work grant): the non-detached in-flight handlers. -/
structure SchedState (K : Type) where
  ws : workState K
  running : Nat
  deriving DecidableEq, Repr

/-- The scheduler state of a queue fresh from NewQueue. -/
def initSched {K : Type} : SchedState K := ⟨⟨0, [], []⟩, 0⟩

/-- The grant-holder exit protocol of internal/work/queue.go, shared by
a worker finishing its current key (work calling tryGetQueuedKey) and
by a detaching handler (handleDetach): under the state lock the grant
is transferred to the oldest reattacher, or used to run the next
queued key (by the same worker or a freshly spawned one), or retired.
Only retirement reduces the number of attached executing handlers
without handing the grant onward. -/
def exitProtocol {K : Type} (s : SchedState K) : SchedState K :=
  match tryGetQueuedKeyLocked s.ws with
  | (ExitAction.retire, ws2) => ⟨ws2, s.running - 1⟩
  | (_, ws2) => ⟨ws2, s.running⟩

/-- Atomic scheduler transitions of a bounded queue with concurrency
limit maxGrants, each taken with the state lock held:
submit (scheduleLimited: issue grants up to the limit, spawn a worker
per issued grant, queue the remaining keys), exit (a worker finishes
its key, or a handler detaches, then runs the exit protocol),
reattachNow (handleReattach with spare capacity: a fresh grant is
issued to the reattaching handler), and reattachWait (handleReattach
at the limit: the handler queues its channel and blocks). -/
inductive SchedStep {K : Type} (maxGrants : Int) :
    SchedState K → SchedState K → Prop where
  | submit (batch : List K) (s : SchedState K) :
      SchedStep maxGrants s
        ⟨(scheduleLimited maxGrants batch s.ws).2,
          s.running + (scheduleLimited maxGrants batch s.ws).1.length⟩
  | exit (s : SchedState K) (hrun : 1 ≤ s.running) :
      SchedStep maxGrants s (exitProtocol s)
  | reattachNow (s : SchedState K) (hcap : s.ws.grants < maxGrants) :
      SchedStep maxGrants s
        ⟨{ s.ws with grants := s.ws.grants + 1 }, s.running + 1⟩
  | reattachWait (token : Nat) (s : SchedState K)
      (hcap : ¬ s.ws.grants < maxGrants) :
      SchedStep maxGrants s
        ⟨{ s.ws with reattachers := s.ws.reattachers ++ [token] },
          s.running⟩

/-- Scheduler states reachable from a fresh bounded queue. -/
inductive SchedReach {K : Type} (maxGrants : Int) : SchedState K → Prop
  | init : SchedReach maxGrants initSched
  | step {s t : SchedState K} (hs : SchedReach maxGrants s)
      (hst : SchedStep maxGrants s t) : SchedReach maxGrants t

/-- Inductive invariant of the work-grant accounting: the grants
counter is between 0 and maxGrants, and every attached executing
handler holds a distinct grant. -/
def SchedInv {K : Type} (maxGrants : Int) (s : SchedState K) : Prop :=
  0 ≤ s.ws.grants ∧ s.ws.grants ≤ maxGrants ∧
    (s.running : Int) ≤ s.ws.grants

theorem schedInv_init {K : Type} (maxGrants : Int)
    (hm : 0 < maxGrants) : SchedInv maxGrants (initSched (K := K)) := by
  refine ⟨le_refl 0, le_of_lt hm, le_refl 0⟩

theorem schedInv_submit {K : Type} (maxGrants : Int) (batch : List K)
    (s : SchedState K) (hinv : SchedInv maxGrants s) :
    SchedInv maxGrants
      ⟨(scheduleLimited maxGrants batch s.ws).2,
        s.running + (scheduleLimited maxGrants batch s.ws).1.length⟩ := by
  obtain ⟨h0, hle, hrun⟩ := hinv
  unfold scheduleLimited
  by_cases hb : batch.length = 0
  · rw [if_pos hb]
    simpa [SchedInv] using ⟨h0, hle, hrun⟩
  · rw [if_neg hb]
    simp only [SchedInv]
    have hg0 : (0 : Int) ≤ maxGrants - s.ws.grants := by omega
    have hl0 : (0 : Int) ≤ (batch.length : Int) := by positivity
    have hmin0 : (0 : Int) ≤
        min (maxGrants - s.ws.grants) (batch.length : Int) :=
      le_min hg0 hl0
    have hminle : min (maxGrants - s.ws.grants) (batch.length : Int) ≤
        maxGrants - s.ws.grants := min_le_left _ _
    have hminlen : min (maxGrants - s.ws.grants) (batch.length : Int) ≤
        (batch.length : Int) := min_le_right _ _
    have htake : (batch.take
        (min (maxGrants - s.ws.grants)
          (batch.length : Int)).toNat).length =
        (min (maxGrants - s.ws.grants) (batch.length : Int)).toNat := by
      rw [List.length_take]
      apply Nat.min_eq_left
      omega
    refine ⟨by omega, by omega, ?_⟩
    rw [htake]
    push_cast
    omega

theorem schedInv_exit {K : Type} (maxGrants : Int) (s : SchedState K)
    (hrun : 1 ≤ s.running) (hinv : SchedInv maxGrants s) :
    SchedInv maxGrants (exitProtocol s) := by
  obtain ⟨h0, hle, hr⟩ := hinv
  unfold exitProtocol tryGetQueuedKeyLocked
  rcases hra : s.ws.reattachers with _ | ⟨r, rest⟩
  · rcases hk : s.ws.keys with _ | ⟨k, krest⟩
    · simp only [SchedInv]
      refine ⟨by omega, by omega, by omega⟩
    · simp only [SchedInv]
      exact ⟨h0, hle, hr⟩
  · simp only [SchedInv]
    exact ⟨h0, hle, hr⟩

theorem schedInv_step {K : Type} (maxGrants : Int)
    {s t : SchedState K} (hinv : SchedInv maxGrants s)
    (hst : SchedStep maxGrants s t) : SchedInv maxGrants t := by
  cases hst with
  | submit batch s => exact schedInv_submit maxGrants batch s hinv
  | exit s hrun => exact schedInv_exit maxGrants s hrun hinv
  | reattachNow s hcap =>
    obtain ⟨h0, hle, hr⟩ := hinv
    unfold SchedInv
    dsimp only
    refine ⟨by omega, by omega, by push_cast; omega⟩
  | reattachWait token s hcap =>
    obtain ⟨h0, hle, hr⟩ := hinv
    unfold SchedInv
    dsimp only
    exact ⟨h0, hle, hr⟩

theorem schedReach_inv {K : Type} (maxGrants : Int)
    (hm : 0 < maxGrants) {s : SchedState K}
    (h : SchedReach maxGrants s) : SchedInv maxGrants s := by
  induction h with
  | init => exact schedInv_init maxGrants hm
  | step hs hst ih => exact schedInv_step maxGrants ih hst

/-- C3: in a bounded queue with cap maxGrants = N > 0, every scheduler
state reachable at a point where the state lock is released satisfies
grants at most N, and the number of concurrently executing non-detached
handlers (each of which holds a work grant) is at most N, across all
interleavings of submission, worker exit, detach and reattach. -/
theorem grants_bounded_by_cap {K : Type} (maxGrants : Int)
    (hm : 0 < maxGrants) {s : SchedState K}
    (h : SchedReach maxGrants s) :
    s.ws.grants ≤ maxGrants ∧ (s.running : Int) ≤ maxGrants := by
  obtain ⟨h0, hle, hr⟩ := schedReach_inv maxGrants hm h
  exact ⟨hle, le_trans hr hle⟩

/-- Witness for C3 on a concrete run with cap 1: submit the batch
[1, 2], so one grant is issued and key 2 is queued. -/
theorem grants_bounded_by_cap_witness :
    (⟨(scheduleLimited 1 [1, 2] (initSched (K := Nat)).ws).2,
        (initSched (K := Nat)).running +
          (scheduleLimited 1 [1, 2] (initSched (K := Nat)).ws).1.length⟩ :
      SchedState Nat).ws.grants ≤ 1 ∧
    ((⟨(scheduleLimited 1 [1, 2] (initSched (K := Nat)).ws).2,
        (initSched (K := Nat)).running +
          (scheduleLimited 1 [1, 2] (initSched (K := Nat)).ws).1.length⟩ :
      SchedState Nat).running : Int) ≤ 1 :=
  grants_bounded_by_cap 1 (by decide)
    (SchedReach.step SchedReach.init
      (SchedStep.submit [1, 2] initSched))

/-- Fuel-driven repetition of the grant-holder dequeue loop of work:
collect the keys handed out by successive tryGetQueuedKeyLocked calls
until the grant is retired or transferred. -/
def drainKeysAux {K : Type} (fuel : Nat) (s : workState K) : List K :=
  match fuel with
  | 0 => []
  | fuel + 1 =>
    match tryGetQueuedKeyLocked s with
    | (ExitAction.run k, s2) => k :: drainKeysAux fuel s2
    | _ => []

/-- The order in which the queued keys of a scheduler state are handed
to workers when no further submissions arrive. -/
def drainKeys {K : Type} (s : workState K) : List K :=
  drainKeysAux s.keys.length s

/-- With no waiting reattachers, workers drain the pending-key queue
front to back. -/
theorem drainKeys_eq_keys {K : Type} (s : workState K)
    (hra : s.reattachers = []) : drainKeys s = s.keys := by
  obtain ⟨g, keys, ra⟩ := s
  simp only at hra
  subst hra
  unfold drainKeys
  simp only
  induction keys generalizing g with
  | nil => rfl
  | cons k rest ih =>
    simp only [List.length_cons]
    unfold drainKeysAux
    simp only [tryGetQueuedKeyLocked]
    rw [ih g]

/-- C8: scheduleLimited places the batch of a single caller
contiguously: some prefix of the batch is handed to freshly started
workers in batch order and the remaining suffix is appended, as one
block, behind whatever keys were already queued (never interleaved
with the keys of another caller). Consequently, on an initially empty
bounded queue the handlers for the batch k1..kn are started in exactly
the order k1, ..., kn subject to the cap: first the granted prefix,
then the queued suffix as workers drain it front to back. -/
theorem batch_contiguous_and_ordered {K : Type} (maxGrants : Int)
    (batch : List K) (_hm : 0 < maxGrants) :
    (∀ s : workState K, ∃ n : Nat,
      (scheduleLimited maxGrants batch s).1 = batch.take n ∧
      (scheduleLimited maxGrants batch s).2.keys =
        s.keys ++ batch.drop n) ∧
    (scheduleLimited maxGrants batch ⟨0, [], []⟩).1 ++
        drainKeys (scheduleLimited maxGrants batch ⟨0, [], []⟩).2 =
      batch := by
  constructor
  · intro s
    unfold scheduleLimited
    by_cases hb : batch.length = 0
    · rw [if_pos hb]
      refine ⟨0, ?_, ?_⟩
      · rw [List.length_eq_zero.mp hb]
        rfl
      · rw [List.length_eq_zero.mp hb]
        simp
    · rw [if_neg hb]
      exact ⟨(min (maxGrants - s.grants) (batch.length : Int)).toNat,
        rfl, rfl⟩
  · unfold scheduleLimited
    by_cases hb : batch.length = 0
    · rw [if_pos hb]
      rw [List.length_eq_zero.mp hb]
      rfl
    · rw [if_neg hb]
      simp only
      rw [drainKeys_eq_keys _ rfl]
      simp only [List.nil_append]
      exact List.take_append_drop _ batch

/-- Witness for C8 with cap 2 and the batch [1, 2, 3]: keys 1 and 2 go
to new workers, key 3 is queued and drained afterwards. -/
theorem batch_contiguous_and_ordered_witness :
    (∀ s : workState Nat, ∃ n : Nat,
      (scheduleLimited 2 [1, 2, 3] s).1 = [1, 2, 3].take n ∧
      (scheduleLimited 2 [1, 2, 3] s).2.keys =
        s.keys ++ [1, 2, 3].drop n) ∧
    (scheduleLimited 2 [1, 2, 3] ⟨0, [], []⟩).1 ++
        drainKeys (scheduleLimited 2 [1, 2, 3] ⟨0, [], []⟩).2 =
      [1, 2, 3] :=
  batch_contiguous_and_ordered 2 [1, 2, 3] (by decide)

/-- Embedding of the tasks map of an unlimited queue with a pure
handler: an association list from keys to the stored (value, error)
pair, in insertion order. -/
def lookupTask {K V E : Type} [DecidableEq K]
    (tasks : List (K × (V × Option E))) (k : K) :
    Option (V × Option E) :=
  match tasks with
  | [] => none
  | (k2, r) :: rest => if k = k2 then some r else lookupTask rest k

/-- Embedding of getOrCreateTasks followed by the unlimited-mode
scheduleNewKeys and completeTask of internal/work/queue.go, for a pure
handler h: each key absent from the map gets a fresh task whose result
is h applied to the key, and tasksDone is incremented once per new
key. Keys already present are skipped. -/
def runNewKeys {K V E : Type} [DecidableEq K] (h : K → V × Option E)
    (keys : List K) (tasks : List (K × (V × Option E)))
    (tasksDone : Nat) : List (K × (V × Option E)) × Nat :=
  match keys with
  | [] => (tasks, tasksDone)
  | k :: rest =>
    match lookupTask tasks k with
    | some _ => runNewKeys h rest tasks tasksDone
    | none => runNewKeys h rest (tasks ++ [(k, h k)]) (tasksDone + 1)

/-- Embedding of taskList.Wait from internal/work/queue.go: collect the
values of the tasks in order, stopping at the first task whose error
is non-nil and returning that error with no values. -/
def taskListWait {V E : Type} (results : List (V × Option E)) :
    List V × Option E :=
  match results with
  | [] => ([], none)
  | (v, e) :: rest =>
    match e with
    | some e2 => ([], some e2)
    | none =>
      match taskListWait rest with
      | (vs, none) => (v :: vs, none)
      | (_, some e2) => ([], some e2)

/-- Embedding of Queue.GetAll on an unlimited queue with a pure
handler, run to quiescence: submit the keys, let every new handler
finish, then wait on the task of every requested key in order. Returns
the GetAll result (none only if a requested task were missing, which
cannot happen) and the Stats pair (done, submitted). -/
def getAllUnlimited {K V E : Type} [DecidableEq K]
    (h : K → V × Option E) (keys : List K) :
    Option (List V × Option E) × Nat × Nat :=
  let r := runNewKeys h keys [] 0
  let results := keys.map fun k => lookupTask r.1 k
  if results.all fun o => o.isSome then
    (some (taskListWait (results.reduceOption)), r.2, r.1.length)
  else
    (none, r.2, r.1.length)

/-- C7 counterexample: for the unlimited queue with handler
h x = (x, nil), after GetAll 1 2 1 2 3 the Stats pair is (3, 3), not
the (5, 3) the claim states: tasksDone is incremented once per handler
invocation and the handler runs once per distinct key. -/
theorem getAll_s1_stats_ne_five_three :
    (getAllUnlimited (fun x : Nat => (x, (none : Option Unit)))
        [1, 2, 1, 2, 3]).2 = (3, 3) ∧
    (getAllUnlimited (fun x : Nat => (x, (none : Option Unit)))
        [1, 2, 1, 2, 3]).2 ≠ (5, 3) := by
  exact ⟨rfl, by decide⟩

/-- C7 amended: for the unlimited queue with handler h x = (x, nil),
GetAll 1 2 1 2 3 returns the values [1, 2, 1, 2, 3] with nil error,
and Stats afterwards reports done = 3 and submitted = 3 (the three
distinct keys), not (5, 3). -/
theorem getAll_s1_values_and_stats :
    getAllUnlimited (fun x : Nat => (x, (none : Option Unit)))
        [1, 2, 1, 2, 3] =
      (some ([1, 2, 1, 2, 3], none), 3, 3) := by
  rfl

end MagicMirror
